import Mathlib

/-!
Verification of `src/Exercises/Solves/cust_modules.py`.

The source file defines a single Python function:

  def clean_response(text):
      pattern = r"<think>.*?</think>"
      cleaned_text = re.sub(pattern, "", text, flags=re.DOTALL).strip()
      return cleaned_text

We model Python strings as `List Char` (a Python `str` is a sequence of
Unicode code points).  `re.sub` with the non-greedy pattern
`<think>.*?</think>` under `re.DOTALL` scans the text left to right; at
each position it matches when the literal `<think>` starts there and a
literal `</think>` occurs later, consuming through the nearest such
`</think>` (DOTALL lets `.` match newlines, so any characters may stand
between the markers); matched spans are replaced by the empty string and
scanning resumes right after the match, while unmatched characters are
copied over.  `str.strip()` with no argument removes leading and
trailing characters `c` with `c.isspace()`.

The scanning function is written with an explicit fuel argument equal to
the length of the input so that it is structurally recursive (each step
either copies one character or consumes a whole span of length at least
fifteen, so `l.length` steps always suffice; fuel-insensitivity is proved
below as `removeSpansF_fuel_irrel`).
-/

/-- Character-list prefix test: `startsWith p s` is true iff `p` is an
initial segment of `s` (the semantics of anchoring a literal pattern at
the current scan position). -/
def startsWith : List Char → List Char → Bool
  | [], _ => true
  | _ :: _, [] => false
  | a :: as, b :: bs => a == b && startsWith as bs

/-- The literal opening marker of the source pattern. -/
def openTag : List Char := "<think>".data

/-- The literal closing marker of the source pattern. -/
def closeTag : List Char := "</think>".data

/-- Search `l` for the first occurrence of the literal `</think>`; on
success return the remainder of `l` after that occurrence (the position
where `re.sub` resumes scanning).  `none` when no closing marker occurs,
in which case the regex engine fails the match. -/
def dropToClose : List Char → Option (List Char)
  | [] => none
  | c :: cs =>
    if startsWith closeTag (c :: cs) then some (cs.drop 7)
    else dropToClose cs

/-- Fuelled model of `re.sub(r"<think>.*?</think>", "", text, flags=re.DOTALL)`:
scan left to right; when `<think>` matches at the current position and a
`</think>` follows, drop everything through the nearest `</think>` and
resume after it; otherwise copy the current character.  The fuel only
bounds the recursion depth; `l.length` is always enough. -/
def removeSpansF : Nat → List Char → List Char
  | 0, l => l
  | _ + 1, [] => []
  | f + 1, c :: cs =>
    if startsWith openTag (c :: cs) then
      match dropToClose (cs.drop 6) with
      | some rest => removeSpansF f rest
      | none => c :: removeSpansF f cs
    else
      c :: removeSpansF f cs

/-- The global non-greedy span removal performed by the `re.sub` call. -/
def removeSpans (l : List Char) : List Char := removeSpansF l.length l

/-- Python `str.isspace` for a single code point: the set of code points
CPython treats as whitespace (ASCII whitespace `\t \n \v \f \r`, the
information/record separators `0x1c`–`0x1f`, space, NEL `0x85`,
no-break space `0xa0`, and the Unicode space separators). -/
def pyIsSpace (c : Char) : Bool :=
  c.toNat ∈ [0x09, 0x0a, 0x0b, 0x0c, 0x0d, 0x1c, 0x1d, 0x1e, 0x1f, 0x20,
    0x85, 0xa0, 0x1680, 0x2000, 0x2001, 0x2002, 0x2003, 0x2004, 0x2005,
    0x2006, 0x2007, 0x2008, 0x2009, 0x200a, 0x2028, 0x2029, 0x202f,
    0x205f, 0x3000]

/-- Python `str.strip()` with no argument: remove every leading and every
trailing whitespace code point. -/
def pyStrip (l : List Char) : List Char :=
  ((l.dropWhile pyIsSpace).reverse.dropWhile pyIsSpace).reverse

/-- The source function `clean_response`: remove all `<think>...</think>`
spans globally, then strip outer whitespace. -/
def clean_response (l : List Char) : List Char := pyStrip (removeSpans l)

/-- Decidable test for the presence of a removable span: some position of
`l` starts with the literal `<think>` and a literal `</think>` occurs
after it. -/
def hasSpan : List Char → Bool
  | [] => false
  | c :: cs =>
    (startsWith openTag (c :: cs) && (dropToClose (cs.drop 6)).isSome)
      || hasSpan cs

/-! ### Basic facts about the scanner -/

theorem startsWith_length : ∀ {p s : List Char}, startsWith p s = true → p.length ≤ s.length
  | [], _, _ => Nat.zero_le _
  | _ :: _, [], h => by simp [startsWith] at h
  | a :: as, b :: bs, h => by
    simp only [startsWith, Bool.and_eq_true] at h
    simpa using startsWith_length h.2

theorem removeSpansF_nil (f : Nat) : removeSpansF f [] = [] := by
  cases f <;> rfl

theorem dropToClose_length : ∀ {l r : List Char}, dropToClose l = some r → r.length + 8 ≤ l.length := by
  intro l
  induction l with
  | nil => intro r h; simp [dropToClose] at h
  | cons c cs ih =>
    intro r h
    by_cases hs : startsWith closeTag (c :: cs)
    · simp only [dropToClose, hs, if_true, Option.some_inj] at h
      have hlen : closeTag.length ≤ (c :: cs).length := startsWith_length hs
      have h8 : closeTag.length = 8 := rfl
      subst h
      simp only [List.length_drop, List.length_cons] at *
      omega
    · simp only [dropToClose, hs] at h
      simp only [Bool.false_eq_true, if_false] at h
      have := ih h
      simp only [List.length_cons]
      omega

theorem removeSpansF_fuel_irrel : ∀ (f g : Nat) (l : List Char),
    l.length ≤ f → l.length ≤ g → removeSpansF f l = removeSpansF g l := by
  intro f
  induction f with
  | zero =>
    intro g l hf _
    have hl : l = [] := List.eq_nil_of_length_eq_zero (Nat.le_zero.mp hf)
    subst hl
    rw [removeSpansF_nil, removeSpansF_nil]
  | succ f ih =>
    intro g l hf hg
    cases l with
    | nil => rw [removeSpansF_nil, removeSpansF_nil]
    | cons c cs =>
      cases g with
      | zero => simp at hg
      | succ g =>
        simp only [List.length_cons] at hf hg
        by_cases ho : startsWith openTag (c :: cs)
        · cases hd : dropToClose (cs.drop 6) with
          | some rest =>
            have hr : rest.length + 8 ≤ (cs.drop 6).length := dropToClose_length hd
            have hr2 : (cs.drop 6).length ≤ cs.length := by
              simp [List.length_drop]
            simp only [removeSpansF, ho, if_true, hd]
            exact ih g rest (by omega) (by omega)
          | none =>
            simp only [removeSpansF, ho, if_true, hd]
            rw [ih g cs (by omega) (by omega)]
        · simp only [removeSpansF, ho, Bool.false_eq_true, if_false]
          rw [ih g cs (by omega) (by omega)]

theorem removeSpansF_eq_removeSpans {f : Nat} {l : List Char} (hf : l.length ≤ f) :
    removeSpansF f l = removeSpans l :=
  removeSpansF_fuel_irrel f l.length l hf le_rfl

theorem removeSpansF_of_hasSpan_false : ∀ (f : Nat) (l : List Char),
    hasSpan l = false → removeSpansF f l = l := by
  intro f
  induction f with
  | zero => intro l _; rfl
  | succ f ih =>
    intro l hns
    cases l with
    | nil => rfl
    | cons c cs =>
      simp only [hasSpan, Bool.or_eq_false_iff, Bool.and_eq_false_iff] at hns
      by_cases ho : startsWith openTag (c :: cs)
      · have hd : dropToClose (cs.drop 6) = none := by
          rcases hns.1 with h | h
          · rw [ho] at h; cases h
          · exact Option.not_isSome_iff_eq_none.mp (by simp [h])
        simp only [removeSpansF, ho, if_true, hd]
        rw [ih cs hns.2]
      · simp only [removeSpansF, ho, Bool.false_eq_true, if_false]
        rw [ih cs hns.2]

theorem removeSpans_of_hasSpan_false {l : List Char} (h : hasSpan l = false) :
    removeSpans l = l :=
  removeSpansF_of_hasSpan_false l.length l h

/-! ### Facts about stripping -/

theorem dropWhile_head_false {p : Char → Bool} : ∀ {l : List Char} {c : Char} {t : List Char},
    l.dropWhile p = c :: t → p c = false := by
  intro l
  induction l with
  | nil => intro c t h; simp at h
  | cons a as ih =>
    intro c t h
    by_cases ha : p a
    · rw [List.dropWhile_cons, if_pos ha] at h
      exact ih h
    · rw [List.dropWhile_cons, if_neg (by simp [ha])] at h
      cases h
      simpa using ha

theorem dropWhile_idem {p : Char → Bool} (l : List Char) :
    (l.dropWhile p).dropWhile p = l.dropWhile p := by
  cases h : l.dropWhile p with
  | nil => rfl
  | cons c t =>
    rw [List.dropWhile_cons, if_neg (by simp [dropWhile_head_false h])]

theorem pyStrip_dropWhile (l : List Char) :
    (pyStrip l).dropWhile pyIsSpace = pyStrip l := by
  unfold pyStrip
  cases h : ((l.dropWhile pyIsSpace).reverse.dropWhile pyIsSpace).reverse with
  | nil => rfl
  | cons c t =>
    have hsuf : (l.dropWhile pyIsSpace).reverse.dropWhile pyIsSpace <:+
        (l.dropWhile pyIsSpace).reverse := List.dropWhile_suffix _
    have hpre : c :: t <+: l.dropWhile pyIsSpace := by
      have := List.reverse_prefix.mpr hsuf
      rw [List.reverse_reverse] at this
      rw [← h]
      exact this
    obtain ⟨u, hu⟩ := hpre
    have hc : pyIsSpace c = false := dropWhile_head_false hu.symm
    rw [List.dropWhile_cons, if_neg (by simp [hc])]

theorem pyStrip_idem (l : List Char) : pyStrip (pyStrip l) = pyStrip l := by
  conv_lhs => rw [pyStrip, pyStrip_dropWhile]
  rw [pyStrip]
  rw [List.reverse_reverse, dropWhile_idem, ← pyStrip]

/-! ### Sublist facts -/

theorem dropToClose_sublist : ∀ {l r : List Char}, dropToClose l = some r → r.Sublist l := by
  intro l
  induction l with
  | nil => intro r h; simp [dropToClose] at h
  | cons c cs ih =>
    intro r h
    by_cases hs : startsWith closeTag (c :: cs)
    · simp only [dropToClose, hs, if_true, Option.some_inj] at h
      subst h
      exact (List.drop_sublist 7 cs).trans (List.sublist_cons_self c cs)
    · simp only [dropToClose, hs, Bool.false_eq_true, if_false] at h
      exact (ih h).trans (List.sublist_cons_self c cs)

theorem removeSpansF_sublist : ∀ (f : Nat) (l : List Char), (removeSpansF f l).Sublist l := by
  intro f
  induction f with
  | zero => intro l; exact List.Sublist.refl l
  | succ f ih =>
    intro l
    cases l with
    | nil => rw [removeSpansF_nil]
    | cons c cs =>
      by_cases ho : startsWith openTag (c :: cs)
      · cases hd : dropToClose (cs.drop 6) with
        | some rest =>
          simp only [removeSpansF, ho, if_true, hd]
          exact ((ih rest).trans (dropToClose_sublist hd)).trans
            (((List.drop_sublist 6 cs).trans (List.sublist_cons_self c cs)))
        | none =>
          simp only [removeSpansF, ho, if_true, hd]
          exact (ih cs).cons₂ c
      · simp only [removeSpansF, ho, Bool.false_eq_true, if_false]
        exact (ih cs).cons₂ c

theorem pyStrip_sublist (l : List Char) : (pyStrip l).Sublist l := by
  unfold pyStrip
  have h1 : ((l.dropWhile pyIsSpace).reverse.dropWhile pyIsSpace).Sublist
      (l.dropWhile pyIsSpace).reverse := List.dropWhile_sublist _
  have h2 := h1.reverse
  rw [List.reverse_reverse] at h2
  exact h2.trans (List.dropWhile_sublist _)

theorem clean_response_sublist (l : List Char) : (clean_response l).Sublist l :=
  (pyStrip_sublist _).trans (removeSpansF_sublist l.length l)

/-! ### A second formulation, following the specification text

The specification describes `clean` as: repeatedly remove, globally and
left to right, every minimal-length span that begins at a literal
`<think>` marker and ends at the nearest following `</think>` marker,
both markers inclusive, with any characters (including newlines) in
between; concatenate what remains; then trim outer whitespace.  We
formalise that description directly: `findSpan` returns the start index
of the leftmost removable span together with the index just past its
closing marker, `removeSpansSpecF` excises that region and repeats on
the remainder, and `cleanSpec` finishes with the whitespace trim. -/

/-- Index of the first occurrence of the literal `p` in the text, if any. -/
def findOcc (p : List Char) : List Char → Option Nat
  | [] => if startsWith p [] then some 0 else none
  | c :: cs =>
    if startsWith p (c :: cs) then some 0
    else (findOcc p cs).map (fun n => n + 1)

/-- The leftmost removable span, as a pair `(i, j)`: the span begins at a
literal `<think>` at index `i`, and `j` is the index just past the
nearest `</think>` that follows it (so the span is minimal in length). -/
def findSpan : List Char → Option (Nat × Nat)
  | [] => none
  | c :: cs =>
    if startsWith openTag (c :: cs) then
      match findOcc closeTag (cs.drop 6) with
      | some k => some (0, 7 + (k + 8))
      | none => (findSpan cs).map (fun p => (p.1 + 1, p.2 + 1))
    else
      (findSpan cs).map (fun p => (p.1 + 1, p.2 + 1))

/-- Repeatedly remove the leftmost removable span and concatenate what
remains, as the specification describes (fuelled; `l.length` steps
always suffice since every span is nonempty). -/
def removeSpansSpecF : Nat → List Char → List Char
  | 0, l => l
  | f + 1, l =>
    match findSpan l with
    | some (i, j) => l.take i ++ removeSpansSpecF f (l.drop j)
    | none => l

/-- The specification's description of `clean`: global left-to-right
removal of minimal spans, then the whitespace trim. -/
def cleanSpec (l : List Char) : List Char := pyStrip (removeSpansSpecF l.length l)

/-! ### Equivalence of the two formulations -/

theorem dropToClose_eq_findOcc : ∀ (m : List Char),
    dropToClose m = (findOcc closeTag m).map (fun k => m.drop (k + 8)) := by
  intro m
  induction m with
  | nil => rfl
  | cons c cs ih =>
    by_cases hs : startsWith closeTag (c :: cs)
    · simp [dropToClose, findOcc, hs]
    · simp only [dropToClose, findOcc, hs, Bool.false_eq_true, if_false, ih]
      cases findOcc closeTag cs with
      | none => rfl
      | some k => simp [Nat.add_right_comm]

theorem hasSpan_eq_findSpan : ∀ (l : List Char), hasSpan l = (findSpan l).isSome := by
  intro l
  induction l with
  | nil => rfl
  | cons c cs ih =>
    by_cases ho : startsWith openTag (c :: cs)
    · cases hk : findOcc closeTag (cs.drop 6) with
      | some k =>
        have hd : (dropToClose (cs.drop 6)).isSome = true := by
          rw [dropToClose_eq_findOcc, hk]; rfl
        simp [hasSpan, findSpan, ho, hk, hd]
      | none =>
        have hd : (dropToClose (cs.drop 6)).isSome = false := by
          rw [dropToClose_eq_findOcc, hk]; rfl
        simp [hasSpan, findSpan, ho, hk, hd, ih]
    · simp [hasSpan, findSpan, ho, ih]

theorem findSpan_some_pos : ∀ {l : List Char} {i j : Nat},
    findSpan l = some (i, j) → 0 < j ∧ 0 < l.length := by
  intro l i j h
  cases l with
  | nil => simp [findSpan] at h
  | cons c cs =>
    refine ⟨?_, by simp⟩
    by_cases ho : startsWith openTag (c :: cs)
    · cases hk : findOcc closeTag (cs.drop 6) with
      | some k =>
        simp only [findSpan, ho, if_true, hk, Option.some_inj, Prod.mk.injEq] at h
        omega
      | none =>
        simp only [findSpan, ho, if_true, hk, Option.map_eq_some'] at h
        obtain ⟨p, _, hp⟩ := h
        simp only [Prod.mk.injEq] at hp
        omega
    · simp only [findSpan, ho, Bool.false_eq_true, if_false, Option.map_eq_some'] at h
      obtain ⟨p, _, hp⟩ := h
      simp only [Prod.mk.injEq] at hp
      omega

theorem removeSpansF_findSpan_some : ∀ (f : Nat) (l : List Char) (i j : Nat),
    l.length ≤ f → findSpan l = some (i, j) →
    removeSpansF f l = l.take i ++ removeSpans (l.drop j) := by
  intro f
  induction f with
  | zero =>
    intro l i j hf h
    have hl : l = [] := List.eq_nil_of_length_eq_zero (Nat.le_zero.mp hf)
    subst hl
    simp [findSpan] at h
  | succ f ih =>
    intro l i j hf h
    cases l with
    | nil => simp [findSpan] at h
    | cons c cs =>
      simp only [List.length_cons] at hf
      by_cases ho : startsWith openTag (c :: cs)
      · cases hk : findOcc closeTag (cs.drop 6) with
        | some k =>
          have hd : dropToClose (cs.drop 6) = some ((cs.drop 6).drop (k + 8)) := by
            rw [dropToClose_eq_findOcc, hk]; rfl
          simp only [findSpan, ho, if_true, hk, Option.some_inj, Prod.mk.injEq] at h
          obtain ⟨hi, hj⟩ := h
          subst hi hj
          simp only [removeSpansF, ho, if_true, hd, List.take_zero, List.nil_append]
          rw [List.drop_drop]
          have he : 7 + (k + 8) = (6 + (k + 8)) + 1 := by omega
          rw [he, List.drop_succ_cons]
          exact removeSpansF_eq_removeSpans (by simp only [List.length_drop]; omega)
        | none =>
          have hd : dropToClose (cs.drop 6) = none := by
            rw [dropToClose_eq_findOcc, hk]; rfl
          simp only [findSpan, ho, if_true, hk, Option.map_eq_some'] at h
          obtain ⟨p, hp, hpe⟩ := h
          simp only [Prod.mk.injEq] at hpe
          obtain ⟨hi, hj⟩ := hpe
          subst hi hj
          simp only [removeSpansF, ho, if_true, hd]
          rw [ih cs p.1 p.2 (by omega) (by rw [hp])]
          rw [List.take_succ_cons, List.drop_succ_cons, List.cons_append]
      · simp only [findSpan, ho, Bool.false_eq_true, if_false, Option.map_eq_some'] at h
        obtain ⟨p, hp, hpe⟩ := h
        simp only [Prod.mk.injEq] at hpe
        obtain ⟨hi, hj⟩ := hpe
        subst hi hj
        simp only [removeSpansF, ho, Bool.false_eq_true, if_false]
        rw [ih cs p.1 p.2 (by omega) (by rw [hp])]
        rw [List.take_succ_cons, List.drop_succ_cons, List.cons_append]

theorem removeSpans_findSpan_some {l : List Char} {i j : Nat}
    (h : findSpan l = some (i, j)) :
    removeSpans l = l.take i ++ removeSpans (l.drop j) :=
  removeSpansF_findSpan_some l.length l i j le_rfl h

theorem removeSpansSpecF_eq : ∀ (f : Nat) (l : List Char),
    l.length ≤ f → removeSpansSpecF f l = removeSpans l := by
  intro f
  induction f with
  | zero =>
    intro l hf
    have hl : l = [] := List.eq_nil_of_length_eq_zero (Nat.le_zero.mp hf)
    subst hl
    rfl
  | succ f ih =>
    intro l hf
    cases hfs : findSpan l with
    | none =>
      have hns : hasSpan l = false := by rw [hasSpan_eq_findSpan, hfs]; rfl
      simp only [removeSpansSpecF, hfs]
      exact (removeSpans_of_hasSpan_false hns).symm
    | some p =>
      obtain ⟨i, j⟩ := p
      have hpos := findSpan_some_pos hfs
      simp only [removeSpansSpecF, hfs]
      rw [ih (l.drop j) (by simp only [List.length_drop]; omega)]
      exact (removeSpans_findSpan_some hfs).symm

/-! ### The claims -/

/-- Claim C1: for every input string, `clean_response` equals the process the
specification describes: repeatedly remove, globally and left to right, every
minimal-length span from a literal opening marker through the nearest
following literal closing marker (both inclusive, any characters between),
concatenate what remains, and trim outer whitespace (`cleanSpec`). -/
theorem clean_response_eq_cleanSpec (l : List Char) : clean_response l = cleanSpec l := by
  unfold clean_response cleanSpec
  rw [removeSpansSpecF_eq l.length l le_rfl]

/-- Claim C2: on a string with no removable span (no opening marker followed
later by a closing marker), `clean_response` only trims outer whitespace. -/
theorem clean_response_no_span_eq_strip (s : List Char) (h : hasSpan s = false) :
    clean_response s = pyStrip s := by
  unfold clean_response
  rw [removeSpans_of_hasSpan_false h]

/-- Witness for C2 at the concrete input made of two spaces, hello, two
spaces. -/
theorem clean_response_no_span_eq_strip_witness :
    hasSpan "  hello  ".data = false ∧
      clean_response "  hello  ".data = pyStrip "  hello  ".data :=
  ⟨by decide, clean_response_no_span_eq_strip _ (by decide)⟩

/-- Claim C3, counterexample: `clean_response` is not idempotent.  Removing the
inner span of this input splices the surrounding text into a fresh
removable span, which only a second pass removes. -/
theorem clean_response_not_idempotent :
    clean_response (clean_response "<thi<think>x</think>nk>y</think>z".data) ≠
      clean_response "<thi<think>x</think>nk>y</think>z".data := by decide

/-- Claim C3, amended: `clean_response` is idempotent on every input whose
first-pass output contains no removable span (removal can splice the
surrounding text into a new span, and then a second pass removes more). -/
theorem clean_response_idem_of_no_span_left (s : List Char)
    (h : hasSpan (clean_response s) = false) :
    clean_response (clean_response s) = clean_response s := by
  show pyStrip (removeSpans (clean_response s)) = clean_response s
  rw [removeSpans_of_hasSpan_false h]
  show pyStrip (pyStrip (removeSpans s)) = clean_response s
  rw [pyStrip_idem]
  rfl

/-- Witness for the amended C3 at a concrete input holding one span. -/
theorem clean_response_idem_of_no_span_left_witness :
    hasSpan (clean_response "<think>a</think>b".data) = false ∧
      clean_response (clean_response "<think>a</think>b".data) =
        clean_response "<think>a</think>b".data :=
  ⟨by decide, clean_response_idem_of_no_span_left _ (by decide)⟩

/-- Claim C4: an unterminated opening marker is left untouched: the named
concrete input is returned unchanged, and in general every string none of
whose opening markers has a following closing marker is only trimmed. -/
theorem clean_response_unterminated_untouched :
    clean_response "x<think>unterminated".data = "x<think>unterminated".data ∧
      ∀ s : List Char, hasSpan s = false → clean_response s = pyStrip s := by
  refine ⟨by decide, fun s h => ?_⟩
  unfold clean_response
  rw [removeSpans_of_hasSpan_false h]

/-- Witness for C4 at a concrete input whose opening marker is never
closed. -/
theorem clean_response_unterminated_untouched_witness :
    hasSpan "a<think>b".data = false ∧
      clean_response "a<think>b".data = pyStrip "a<think>b".data :=
  ⟨by decide, clean_response_unterminated_untouched.2 _ (by decide)⟩

/-- Claim C5: a span whose markers are separated by a newline is removed as a
single span. -/
theorem clean_response_multiline_span :
    clean_response "before<think>line1\nline2</think>after".data =
      "beforeafter".data := by decide

/-- Claim C6: adjacent non-overlapping spans are each removed; removal is
global, not first-occurrence only. -/
theorem clean_response_adjacent_spans :
    clean_response "<think>a</think><think>b</think>result".data =
      "result".data := by decide

/-- Claim C7: `clean_response` is total (it is a function in the embedding,
defined on every string); the empty string maps to the empty string, and a
malformed marker sequence is handled without error. -/
theorem clean_response_empty :
    clean_response "".data = "".data ∧
      clean_response "</think><think>".data = "</think><think>".data := by decide

/-- Claim C8: `clean_response` is deterministic: equal inputs give equal
outputs (the embedding is a pure function of the input string alone). -/
theorem clean_response_deterministic (s t : List Char) (h : s = t) :
    clean_response s = clean_response t := by rw [h]

/-- Witness for C8 at a concrete input. -/
theorem clean_response_deterministic_witness :
    "abc".data = "abc".data ∧
      clean_response "abc".data = clean_response "abc".data :=
  ⟨rfl, clean_response_deterministic _ _ rfl⟩

/-- Claim C9: the output is always a subsequence of the input (characters are
only deleted, never inserted, duplicated or reordered), so the output is
never longer than the input. -/
theorem clean_response_sublist_input (l : List Char) :
    (clean_response l).Sublist l ∧ (clean_response l).length ≤ l.length :=
  ⟨clean_response_sublist l, (clean_response_sublist l).length_le⟩

/-- Claim C10: trimming uses the full Python whitespace classification, not
just space, tab and newline: carriage return, vertical tab and form feed
are stripped as well. -/
theorem clean_response_python_whitespace :
    clean_response "\r\x0bhello\x0c".data = "hello".data ∧
      pyIsSpace '\x0d' = true ∧ pyIsSpace '\x0b' = true ∧
      pyIsSpace '\x0c' = true := by decide
